import Mathlib

/-!
Verification of the change-tracking core of the locomote-sh utils repository.

The embedding models JavaScript strings as `List Char` and the loosely-typed
JavaScript "changes" object (string key -> boolean value) as an association
list with unique keys, updated with JavaScript property-assignment semantics
(update the existing slot in place, otherwise append).

Embedded source functions:
* `exec` (src/lib/cmds.js): spawn a command, capture stdout/stderr, reject
  with the concatenated stderr text when any stderr output was produced,
  otherwise resolve with stdout split on newlines.
* `octetToStr`, `correctExtendedChars`, `getChangesSince` / `listActive`
  (git source) and the file source `getChanges` closure (the change-tracking
  module of the repository).
-/

namespace Locomote

/-- A JavaScript string, modelled as its list of UTF-16 code units. -/
abbrev JsStr := List Char

/-- Shorthand turning a Lean string literal into the embedded string type. -/
def toL (s : String) : JsStr := s.data

/-- The `changes` object: relative file path -> active flag.  Keys unique;
modelled as an association list in property-insertion order. -/
abbrev ChangesMap := List (JsStr × Bool)

/-- Property read `m[k]`: first (unique) binding of a key, if any. -/
def lookup : ChangesMap → JsStr → Option Bool
  | [], _ => none
  | (k', v) :: rest, k => if k' = k then some v else lookup rest k

/-- The key list of a changes object. -/
def keys (m : ChangesMap) : List JsStr := m.map (·.1)

/-- Uniqueness of keys: the invariant every JavaScript object satisfies. -/
def NodupKeys (m : ChangesMap) : Prop := (keys m).Nodup

instance (m : ChangesMap) : Decidable (NodupKeys m) :=
  inferInstanceAs (Decidable (keys m).Nodup)

/-- Property assignment `m[k] = v`: overwrite the existing slot for `k`
in place, otherwise append a fresh binding. -/
def setKey : ChangesMap → JsStr → Bool → ChangesMap
  | [], k, v => [(k, v)]
  | (k', v') :: rest, k, v =>
      if k' = k then (k, v) :: rest else (k', v') :: setKey rest k v

/-- `Object.assign(m, a)`: copy every binding of `a` over `m`, in order. -/
def assign (m a : ChangesMap) : ChangesMap :=
  a.foldl (fun acc kv => setKey acc kv.1 kv.2) m

/-!  ## Filename normalization (git source)

`octetToStr` does `String.fromCharCode(parseInt(octet.slice(1), 8))`:
`parseInt` with radix 8 reads the longest prefix of octal digits of the
three matched decimal digits (`NaN` when the first digit is not octal;
`String.fromCharCode` converts `NaN` to code unit 0 via `ToUint16`, which
also reduces any value modulo 2^16). -/

/-- An octal digit character, `'0'..'7'` (code points 48..55). -/
def octDigit (c : Char) : Bool := decide (48 ≤ c.toNat ∧ c.toNat ≤ 55)

/-- A decimal digit character `'0'..'9'`, the regex class `\d`. -/
def jsDigit (c : Char) : Bool := decide (48 ≤ c.toNat ∧ c.toNat ≤ 57)

/-- `parseInt(s, 8)` on a digit string: accumulate the longest prefix of
octal digits, base 8.  A leading non-octal digit yields accumulator 0,
matching `String.fromCharCode(NaN) = '\u0000'` downstream. -/
def parseIntOctGo : List Char → Nat → Nat
  | [], acc => acc
  | c :: rest, acc =>
      if octDigit c then parseIntOctGo rest (acc * 8 + (c.toNat - 48)) else acc

/-- `octetToStr(octet)`: drop the leading backslash of the matched escape,
parse the digits in base 8 and return the one-character string with that
code unit (`String.fromCharCode` applies `ToUint16`, hence `% 2^16`). -/
def octetToStr (octet : List Char) : List Char :=
  [Char.ofNat (parseIntOctGo (octet.drop 1) 0 % 65536)]

/-- The global replace `s.replace(/\\\d\d\d/g, octetToStr)`: scan left to
right; a backslash followed by three decimal digits is replaced by
`octetToStr` of the match, anything else is copied through. -/
def replaceOctets : List Char → List Char
  | '\\' :: d1 :: d2 :: d3 :: rest =>
      if jsDigit d1 && jsDigit d2 && jsDigit d3 then
        octetToStr ['\\', d1, d2, d3] ++ replaceOctets rest
      else
        '\\' :: replaceOctets (d1 :: d2 :: d3 :: rest)
  | c :: rest => c :: replaceOctets rest
  | [] => []

/-- `correctExtendedChars(s)`: when the first and the last character code
are both `0x22` (the double quote) — with no requirement that they be two
distinct characters — strip `s.slice(1, -1)` and replace the octet escape
sequences; otherwise return the string unchanged.  (`charCodeAt` of an
empty string is `NaN`, so the empty string falls into the unchanged case,
which `head? = some '"'` captures.) -/
def correctExtendedChars (s : List Char) : List Char :=
  if s.head? = some '"' ∧ s.getLast? = some '"' then
    replaceOctets ((s.drop 1).dropLast)
  else s

/-!  ## The command runner `exec` (src/lib/cmds.js) -/

/-- The observable outcome of one spawned process: the concatenation of the
captured stdout chunks, the concatenation of the captured stderr chunks
(stream `data` events always carry at least one byte, so bytes were written
to stderr exactly when this field is non-empty), and the exit status, which
`exec` never inspects. -/
structure ProcResult where
  stdout : JsStr
  stderr : JsStr
  exitCode : Int

/-- `exec(cmd, args, cwd, env)` after the process closes: reject with the
full stderr text when any stderr output was captured (`stderr.length > 0`),
regardless of the exit status; otherwise resolve with the stdout split on
newlines. -/
def exec (r : ProcResult) : Except JsStr (List JsStr) :=
  if r.stderr ≠ [] then .error r.stderr
  else .ok (r.stdout.splitOn '\n')

/-!  ## The git change source -/

/-- A rejection of a git-source query: either the propagated `exec`
rejection carrying the stderr text, or the `TypeError` thrown when
`correctExtendedChars` is applied to the `undefined` produced by
destructuring a diff line that contains no tab. -/
inductive QueryError where
  | stderrOutput (text : JsStr)
  | typeError
deriving DecidableEq

deriving instance DecidableEq for Except

/-- A JavaScript value used as a property key: `undefined` coerces to the
string "undefined". -/
def jsKeyOf : Option JsStr → JsStr
  | some s => s
  | none => toL "undefined"

/-- The body of the `forEach` in `getChangesSince`, as the ordered list of
property assignments one diff entry performs:
`let [code, from, to] = entry.split('\t')`, normalize the from path, then
either the rename pair `{from: false, to: true}` (the to path is used raw,
and an absent to path coerces to the key "undefined") or the single
assignment `{from: code !== 'D'}`. An entry without a tab makes
`correctExtendedChars(undefined)` throw a `TypeError`. -/
def diffEntryAssigns (entry : JsStr) : Except QueryError (List (JsStr × Bool)) :=
  match entry.splitOn '\t' with
  | [] => .error .typeError   -- unreachable: split always yields ≥ 1 field
  | code :: paths =>
    match paths with
    | [] => .error .typeError -- `from` is undefined: `.charCodeAt` throws
    | fromRaw :: rest =>
      let f := correctExtendedChars fromRaw
      if code.head? = some 'R' then
        .ok [(f, false), (jsKeyOf rest.head?, true)]
      else
        .ok [(f, decide (code ≠ toL "D"))]

/-- The diff-mode `changes` object: drop empty lines, then perform each
entry's assignments in order (the first `TypeError` aborts the query). -/
def buildDiff (lines : List JsStr) : Except QueryError ChangesMap :=
  (lines.filter (fun l => !l.isEmpty)).foldlM
    (fun m entry => (diffEntryAssigns entry).map (fun as => assign m as)) []

/-- The listing-mode `changes` object of the git source's `listActive`:
drop empty lines, normalize every filename, then assign `true` to each. -/
def buildList (lines : List JsStr) : ChangesMap :=
  ((lines.filter (fun l => !l.isEmpty)).map correctExtendedChars).foldl
    (fun m f => setKey m f true) []

/-- `getChangesSince(since)`: run the diff command and parse its output;
an `exec` rejection propagates unchanged. -/
def getChangesSinceR (r : ProcResult) : Except QueryError ChangesMap :=
  match exec r with
  | .error e => .error (.stderrOutput e)
  | .ok lines => buildDiff lines

/-- `listActive()` of the git source: run the listing command and mark
every listed file active; an `exec` rejection propagates unchanged. -/
def listActiveR (r : ProcResult) : Except QueryError ChangesMap :=
  match exec r with
  | .error e => .error (.stderrOutput e)
  | .ok lines => .ok (buildList lines)

/-- The query function returned by `openGitSource`:
`since ? getChangesSince(since) : listActive()` — JavaScript truthiness, so
an omitted (`none`) or empty `since` selects the listing query.  `r` is the
outcome of whichever command is invoked. -/
def gitGetChanges (since : Option JsStr) (r : ProcResult) : Except QueryError ChangesMap :=
  match since with
  | some s => if s.isEmpty then listActiveR r else getChangesSinceR r
  | none => listActiveR r

/-!  ## The file change source -/

/-- Step 1 of the file source's `getChanges`: for each existing entry,
remove it when its value is `false`, otherwise mark it `false` as a
potential deletion. -/
def prepare : ChangesMap → ChangesMap
  | [] => []
  | (_, false) :: rest => prepare rest
  | (k, true) :: rest => (k, false) :: prepare rest

/-- The `active` object of the file source's `listActive`: assign `true`
to each (already relativized) scanned path in order. -/
def activeOf (scan : List JsStr) : ChangesMap :=
  scan.foldl (fun m f => setKey m f true) []

/-- The net effect of one successful file-source query on the tracked map:
prepare the previous entries, then `Object.assign` the active set over
them.  `scan` is the scanned path list, already relative to the root. -/
def fsStep (m : ChangesMap) (scan : List JsStr) : ChangesMap :=
  assign (prepare m) (activeOf scan)

/-- One call of the closure returned by `openFileSource`, as a state
transformer.  `rel` models `Path.relative(path, ·)`; `r` is the outcome of
the `find` invocation.  The previous entries are rewritten *before* the
enumeration is awaited, so a rejected enumeration leaves the tracked map in
the prepared (tentatively deleted) state; on success the scanned paths are
assigned over it and the updated map is both returned and kept. -/
def fileGetChanges (rel : JsStr → JsStr) (m : ChangesMap) (r : ProcResult) :
    Except JsStr ChangesMap × ChangesMap :=
  match exec r with
  | .error e => (.error e, prepare m)
  | .ok lines =>
      let m' := fsStep m ((lines.filter (fun l => !l.isEmpty)).map rel)
      (.ok m', m')

/-- The tracked map after a sequence of successful queries with the given
scanned path lists, starting from the empty map of a freshly opened
source. -/
def reach (scans : List (List JsStr)) : ChangesMap :=
  scans.foldl fsStep []

/-!  ## Association-list lemmas -/

theorem keys_cons (k0 : JsStr) (v0 : Bool) (rest : ChangesMap) :
    keys ((k0, v0) :: rest) = k0 :: keys rest := rfl

theorem nodupKeys_cons {k0 : JsStr} {v0 : Bool} {rest : ChangesMap} :
    NodupKeys ((k0, v0) :: rest) ↔ k0 ∉ keys rest ∧ NodupKeys rest := by
  simp [NodupKeys, keys_cons, List.nodup_cons]

theorem lookup_setKey (m : ChangesMap) (k : JsStr) (v : Bool) (k' : JsStr) :
    lookup (setKey m k v) k' = if k = k' then some v else lookup m k' := by
  induction m with
  | nil => by_cases h : k = k' <;> simp [setKey, lookup, h]
  | cons kv rest ih =>
    obtain ⟨k0, v0⟩ := kv
    by_cases h0 : k0 = k <;> by_cases h1 : k = k'
    · subst h0; subst h1; simp [setKey, lookup]
    · subst h0; simp [setKey, lookup, h1]
    · subst h1; simp [setKey, lookup, h0, ih]
    · simp [setKey, lookup, h0, h1, ih]

theorem lookup_eq_none (m : ChangesMap) (k : JsStr) :
    lookup m k = none ↔ k ∉ keys m := by
  induction m with
  | nil => simp [lookup, keys]
  | cons kv rest ih =>
    obtain ⟨k0, v0⟩ := kv
    by_cases h : k0 = k
    · simp [lookup, keys_cons, h, ih, List.mem_cons]
    · simp [lookup, keys_cons, h, ih, List.mem_cons, Ne.symm h]

theorem mem_keys_iff_lookup (m : ChangesMap) (k : JsStr) :
    k ∈ keys m ↔ lookup m k ≠ none := by
  constructor
  · intro h hn; exact ((lookup_eq_none _ _).mp hn) h
  · intro h; by_contra hn; exact h ((lookup_eq_none _ _).mpr hn)

theorem lookup_setAll (ps : List JsStr) :
    ∀ (acc : ChangesMap) (k : JsStr),
      lookup (ps.foldl (fun a f => setKey a f true) acc) k
        = if k ∈ ps then some true else lookup acc k := by
  induction ps with
  | nil => intro acc k; simp
  | cons p ps ih =>
    intro acc k
    rw [List.foldl_cons, ih]
    by_cases h : k ∈ ps
    · simp [h]
    · by_cases h2 : p = k
      · simp [h, h2, lookup_setKey]
      · simp [h, h2, lookup_setKey, List.mem_cons, Ne.symm h2]

/-- Every value stored in a changes object. -/
def allTrue (m : ChangesMap) : Prop := ∀ kv ∈ m, kv.2 = true

theorem mem_setKey {m : ChangesMap} {k : JsStr} {v : Bool} {kv : JsStr × Bool}
    (h : kv ∈ setKey m k v) : kv = (k, v) ∨ kv ∈ m := by
  induction m with
  | nil => simp [setKey] at h; exact Or.inl h
  | cons kv0 rest ih =>
    obtain ⟨k0, v0⟩ := kv0
    by_cases h0 : k0 = k
    · simp only [setKey, if_pos h0] at h
      rcases List.mem_cons.mp h with h | h
      · exact Or.inl h
      · exact Or.inr (List.mem_cons_of_mem _ h)
    · simp only [setKey, if_neg h0] at h
      rcases List.mem_cons.mp h with h | h
      · exact Or.inr (by simp [h])
      · rcases ih h with h' | h'
        · exact Or.inl h'
        · exact Or.inr (List.mem_cons_of_mem _ h')

theorem allTrue_setKey {m : ChangesMap} {k : JsStr} (h : allTrue m) :
    allTrue (setKey m k true) := by
  intro kv hkv
  rcases mem_setKey hkv with h' | h'
  · subst h'; rfl
  · exact h kv h'

theorem allTrue_setAll (ps : List JsStr) :
    ∀ acc, allTrue acc → allTrue (ps.foldl (fun a f => setKey a f true) acc) := by
  induction ps with
  | nil => intro acc h; exact h
  | cons p ps ih => intro acc h; exact ih _ (allTrue_setKey h)

theorem allTrue_activeOf (scan : List JsStr) : allTrue (activeOf scan) :=
  allTrue_setAll scan [] (fun kv h => by cases h)

theorem lookup_activeOf (scan : List JsStr) (k : JsStr) :
    lookup (activeOf scan) k = if k ∈ scan then some true else none := by
  have h := lookup_setAll scan [] k
  simpa [activeOf, lookup] using h

theorem mem_keys_activeOf (scan : List JsStr) (k : JsStr) :
    k ∈ keys (activeOf scan) ↔ k ∈ scan := by
  rw [mem_keys_iff_lookup, lookup_activeOf]
  by_cases h : k ∈ scan <;> simp [h]

theorem lookup_assign_allTrue (a : ChangesMap) :
    ∀ (m : ChangesMap) (k : JsStr), allTrue a →
      lookup (assign m a) k = if k ∈ keys a then some true else lookup m k := by
  induction a with
  | nil => intro m k _; simp [assign, keys, lookup]
  | cons kv rest ih =>
    intro m k hall
    obtain ⟨k0, v0⟩ := kv
    have hv : v0 = true := hall (k0, v0) (List.mem_cons_self _ _)
    subst hv
    have hrest : allTrue rest := fun kv hkv => hall kv (List.mem_cons_of_mem _ hkv)
    show lookup (assign (setKey m k0 true) rest) k = _
    rw [ih _ _ hrest, lookup_setKey]
    by_cases h : k ∈ keys rest
    · simp [keys_cons, List.mem_cons, h]
    · by_cases h2 : k0 = k
      · simp [keys_cons, List.mem_cons, h, h2]
      · simp [keys_cons, List.mem_cons, h, h2, Ne.symm h2]

theorem keys_setKey (m : ChangesMap) (k : JsStr) (v : Bool) :
    keys (setKey m k v) = if k ∈ keys m then keys m else keys m ++ [k] := by
  induction m with
  | nil => simp [setKey, keys]
  | cons kv rest ih =>
    obtain ⟨k0, v0⟩ := kv
    by_cases h0 : k0 = k
    · subst h0; simp [setKey, keys_cons, List.mem_cons]
    · by_cases h1 : k ∈ keys rest <;>
        simp [setKey, h0, keys_cons, ih, List.mem_cons, h1, Ne.symm h0]

theorem nodupKeys_setKey (m : ChangesMap) (k : JsStr) (v : Bool) (h : NodupKeys m) :
    NodupKeys (setKey m k v) := by
  unfold NodupKeys at *
  rw [keys_setKey]
  by_cases h1 : k ∈ keys m
  · simpa [h1] using h
  · simp only [if_neg h1]
    rw [List.nodup_append]
    exact ⟨h, List.nodup_singleton k,
      fun a ha hb => h1 (by rw [List.mem_singleton] at hb; exact hb ▸ ha)⟩

theorem nodupKeys_assign (a : ChangesMap) :
    ∀ m, NodupKeys m → NodupKeys (assign m a) := by
  induction a with
  | nil => intro m h; exact h
  | cons kv rest ih =>
    intro m h
    exact ih _ (nodupKeys_setKey _ _ _ h)

theorem keys_prepare_sublist (m : ChangesMap) :
    (keys (prepare m)).Sublist (keys m) := by
  induction m with
  | nil => simp [prepare, keys]
  | cons kv rest ih =>
    obtain ⟨k0, v0⟩ := kv
    cases v0
    · exact ih.trans (List.sublist_cons_self _ _)
    · exact List.Sublist.cons₂ _ ih

theorem nodupKeys_prepare {m : ChangesMap} (h : NodupKeys m) :
    NodupKeys (prepare m) :=
  (keys_prepare_sublist m).nodup h

theorem lookup_prepare (m : ChangesMap) (k : JsStr) (h : NodupKeys m) :
    lookup (prepare m) k
      = if lookup m k = some true then some false else none := by
  induction m with
  | nil => simp [prepare, lookup]
  | cons kv rest ih =>
    obtain ⟨k0, v0⟩ := kv
    obtain ⟨h0, hrest⟩ := nodupKeys_cons.mp h
    cases v0
    · show lookup (prepare rest) k = _
      rw [ih hrest]
      by_cases hk : k0 = k
      · subst hk
        have hnone : lookup rest k0 = none := (lookup_eq_none _ _).mpr h0
        simp [lookup, hnone]
      · simp [lookup, hk]
    · by_cases hk : k0 = k
      · subst hk; simp [prepare, lookup]
      · show lookup ((k0, false) :: prepare rest) k = _
        simp [lookup, hk, ih hrest]

theorem lookup_fsStep (m : ChangesMap) (scan : List JsStr) (k : JsStr)
    (h : NodupKeys m) :
    lookup (fsStep m scan) k
      = if k ∈ scan then some true
        else if lookup m k = some true then some false else none := by
  unfold fsStep
  rw [lookup_assign_allTrue _ _ _ (allTrue_activeOf scan)]
  by_cases hs : k ∈ scan
  · simp [mem_keys_activeOf, hs]
  · simp [mem_keys_activeOf, hs, lookup_prepare m k h]

theorem nodupKeys_fsStep {m : ChangesMap} (scan : List JsStr)
    (h : NodupKeys m) : NodupKeys (fsStep m scan) :=
  nodupKeys_assign _ _ (nodupKeys_prepare h)

theorem nodupKeys_foldl_fsStep (scans : List (List JsStr)) :
    ∀ m, NodupKeys m → NodupKeys (scans.foldl fsStep m) := by
  induction scans with
  | nil => intro m h; exact h
  | cons s rest ih => intro m h; exact ih _ (nodupKeys_fsStep s h)

theorem nodupKeys_reach (scans : List (List JsStr)) : NodupKeys (reach scans) :=
  nodupKeys_foldl_fsStep scans [] (by simp [NodupKeys, keys])

theorem lookup_buildList (lines : List JsStr) (k : JsStr) :
    lookup (buildList lines) k
      = if k ∈ (lines.filter (fun l => !l.isEmpty)).map correctExtendedChars
        then some true else none := by
  have h := lookup_setAll ((lines.filter (fun l => !l.isEmpty)).map correctExtendedChars) [] k
  simpa [buildList, lookup] using h

theorem allTrue_buildList (lines : List JsStr) : allTrue (buildList lines) :=
  allTrue_setAll _ [] (fun kv h => by cases h)

theorem mem_keys_buildList (lines : List JsStr) (k : JsStr) :
    k ∈ keys (buildList lines)
      ↔ ∃ l, l ∈ lines ∧ l ≠ [] ∧ correctExtendedChars l = k := by
  rw [mem_keys_iff_lookup, lookup_buildList]
  by_cases hx : k ∈ (lines.filter (fun l => !l.isEmpty)).map correctExtendedChars
  · simp only [if_pos hx, ne_eq]
    simp only [List.mem_map, List.mem_filter] at hx
    obtain ⟨l, ⟨hl, hne⟩, hk⟩ := hx
    constructor
    · intro _; exact ⟨l, hl, by simpa using hne, hk⟩
    · intro _; simp
  · simp only [if_neg hx, ne_eq]
    constructor
    · intro h; simp at h
    · rintro ⟨l, hl, hne, hk⟩
      exact absurd (List.mem_map.mpr
        ⟨l, List.mem_filter.mpr ⟨hl, by simpa using hne⟩, hk⟩) hx

/-!  ## Normalization as the specification describes it

`specNormalizeName` follows the specification's words for filename
normalization: if a path string both starts and ends with a double quote,
strip both quotes and replace every occurrence of a backslash followed by
exactly three *octal* digits with the single byte that sequence encodes in
octal; other strings pass through unchanged. -/

/-- The byte encoded in octal by three octal digits. -/
def specDecodeOctal (d1 d2 d3 : Char) : Char :=
  Char.ofNat ((d1.toNat - 48) * 64 + (d2.toNat - 48) * 8 + (d3.toNat - 48))

/-- Replacement of octal escape sequences as the specification words it:
only a backslash followed by three octal digits is an escape. -/
def specReplaceEscapes : List Char → List Char
  | '\\' :: d1 :: d2 :: d3 :: rest =>
      if octDigit d1 && octDigit d2 && octDigit d3 then
        specDecodeOctal d1 d2 d3 :: specReplaceEscapes rest
      else
        '\\' :: specReplaceEscapes (d1 :: d2 :: d3 :: rest)
  | c :: rest => c :: specReplaceEscapes rest
  | [] => []

/-- Filename normalization exactly as claimed. -/
def specNormalizeName (s : List Char) : List Char :=
  if s.head? = some '"' ∧ s.getLast? = some '"' then
    specReplaceEscapes ((s.drop 1).dropLast)
  else s

/-!  ## Normalization as the code actually behaves (amended description)

The implementation's regex matches a backslash followed by three *decimal*
digits, and `parseInt(_, 8)` reads only the longest octal-digit prefix of
the match (an empty prefix gives `NaN`, which `fromCharCode` turns into
code unit 0).  `amendedNormalizeName` states that behaviour directly, with
the substituted code unit given by a closed formula instead of the
implementation's accumulator loop. -/

/-- The code unit substituted for a matched escape `\d₁d₂d₃`: the longest
octal-digit prefix of the three decimal digits, read in base 8 (0 when the
first digit is 8 or 9); its value can reach 511 = `0o777`. -/
def amendedDecode (d1 d2 d3 : Char) : Char :=
  if octDigit d1 then
    if octDigit d2 then
      if octDigit d3 then
        Char.ofNat ((d1.toNat - 48) * 64 + (d2.toNat - 48) * 8 + (d3.toNat - 48))
      else Char.ofNat ((d1.toNat - 48) * 8 + (d2.toNat - 48))
    else Char.ofNat (d1.toNat - 48)
  else Char.ofNat 0

/-- Replacement of escapes as the amended claim words it: every backslash
followed by exactly three decimal digits is an escape. -/
def amendedReplace : List Char → List Char
  | '\\' :: d1 :: d2 :: d3 :: rest =>
      if jsDigit d1 && jsDigit d2 && jsDigit d3 then
        amendedDecode d1 d2 d3 :: amendedReplace rest
      else
        '\\' :: amendedReplace (d1 :: d2 :: d3 :: rest)
  | c :: rest => c :: amendedReplace rest
  | [] => []

/-- Filename normalization as the amended claim describes it. -/
def amendedNormalizeName (s : List Char) : List Char :=
  if s.head? = some '"' ∧ s.getLast? = some '"' then
    amendedReplace ((s.drop 1).dropLast)
  else s

theorem octetToStr_eq_amendedDecode (d1 d2 d3 : Char) :
    octetToStr ['\\', d1, d2, d3] = [amendedDecode d1 d2 d3] := by
  unfold octetToStr amendedDecode
  by_cases h1 : octDigit d1
  · by_cases h2 : octDigit d2
    · by_cases h3 : octDigit d3
      · simp [parseIntOctGo, h1, h2, h3]
        simp only [octDigit, decide_eq_true_eq] at h1 h2 h3
        congr 1
        omega
      · simp [parseIntOctGo, h1, h2, h3]
        simp only [octDigit, decide_eq_true_eq] at h1 h2
        congr 1
        omega
    · simp [parseIntOctGo, h1, h2]
      simp only [octDigit, decide_eq_true_eq] at h1
      congr 1
      omega
  · simp [parseIntOctGo, h1]

theorem replaceOctets_eq_amended (s : List Char) :
    replaceOctets s = amendedReplace s := by
  induction s using replaceOctets.induct with
  | case1 d1 d2 d3 rest h ih =>
      simp [replaceOctets, amendedReplace, h, octetToStr_eq_amendedDecode, ih]
  | case2 d1 d2 d3 rest h ih =>
      simp [replaceOctets, amendedReplace, h, ih]
  | case3 c rest h ih =>
      simp [replaceOctets, amendedReplace, ih]
  | case4 => rfl

theorem correctExtendedChars_eq_amended (s : List Char) :
    correctExtendedChars s = amendedNormalizeName s := by
  unfold correctExtendedChars amendedNormalizeName
  by_cases h : s.head? = some '"' ∧ s.getLast? = some '"' <;>
    simp [h, replaceOctets_eq_amended]

/-!  ## Claim C1 (corrected) -/

/-- Claim C1, as stated, is false at a concrete input: when the
enumeration command of the file source reports error-stream output, the
query does fail, but the tracked map is not left exactly as it was — here
the entry `b` (previously false) has been removed and the entry `a`
(previously true) has been tentatively set to false. -/
theorem c1_counterexample :
    (fileGetChanges id [(toL "a", true), (toL "b", false)] ⟨[], toL "boom", 0⟩).2
        = [(toL "a", false)]
    ∧ (fileGetChanges id [(toL "a", true), (toL "b", false)] ⟨[], toL "boom", 0⟩).2
        ≠ [(toL "a", true), (toL "b", false)] := by
  decide

/-- Claim C1, amended: for the filesystem backend, if the file-enumeration
command reports error-stream output the query fails carrying that text,
and the internal tracked map is left in the step-1 tentative state — every
entry that was false has been removed and every entry that was true has
been set to false — not in its pre-call state (the code mutates `tracked`
before awaiting the enumeration, so steps 1-3 are not one atomic
transition). -/
theorem c1_error_keeps_prepared_state (rel : JsStr → JsStr) (m : ChangesMap)
    (r : ProcResult) (k : JsStr) (hm : NodupKeys m) (h : r.stderr ≠ []) :
    fileGetChanges rel m r = (.error r.stderr, prepare m)
    ∧ lookup (prepare m) k
        = (if lookup m k = some true then some false else none) := by
  refine ⟨?_, lookup_prepare m k hm⟩
  simp [fileGetChanges, exec, h]

theorem c1_witness :
    fileGetChanges id [(toL "a", true)] ⟨[], toL "boom", 0⟩
        = (.error (toL "boom"), prepare [(toL "a", true)])
    ∧ lookup (prepare [(toL "a", true)]) (toL "a")
        = (if lookup [(toL "a", true)] (toL "a") = some true
           then some false else none) :=
  c1_error_keeps_prepared_state id [(toL "a", true)] ⟨[], toL "boom", 0⟩
    (toL "a") (by decide) (by decide)

/-!  ## Claim C2 (corrected) -/

/-- Claim C2, as stated, is false at a concrete input: for a rename-style
diff entry the "to" path is *not* passed through filename normalization —
the quoted path stays quoted when used as a map key, so the normalized key
is absent and the raw key is present. -/
theorem c2_counterexample :
    buildDiff [toL "R100\ta\t\"b\""]
        = .ok [(toL "a", false), (toL "\"b\"", true)]
    ∧ correctExtendedChars (toL "\"b\"") = toL "b"
    ∧ lookup [(toL "a", false), (toL "\"b\"", true)] (toL "b") = none
    ∧ lookup [(toL "a", false), (toL "\"b\"", true)] (toL "\"b\"") = some true := by
  decide

/-- Claim C2, amended: in the Git change source the "from" path of a diff
entry and every path of a listing-mode query are passed through filename
normalization before being used as a key of the returned ChangesMap, but
the "to" path of a rename-style entry is used raw, without
normalization. -/
theorem c2_normalization_amended
    (e1 code1 f1 t1 e2 code2 f2 : JsStr) (rest2 : List JsStr)
    (lines : List JsStr) (k : JsStr)
    (h1 : e1.splitOn '\t' = [code1, f1, t1]) (hr1 : code1.head? = some 'R')
    (h2 : e2.splitOn '\t' = code2 :: f2 :: rest2)
    (hr2 : code2.head? ≠ some 'R')
    (hk : k ∈ keys (buildList lines)) :
    diffEntryAssigns e1 = .ok [(correctExtendedChars f1, false), (t1, true)]
    ∧ diffEntryAssigns e2
        = .ok [(correctExtendedChars f2, decide (code2 ≠ toL "D"))]
    ∧ ∃ l, l ∈ lines ∧ l ≠ [] ∧ correctExtendedChars l = k := by
  refine ⟨?_, ?_, (mem_keys_buildList lines k).mp hk⟩
  · simp [diffEntryAssigns, h1, hr1, jsKeyOf]
  · simp [diffEntryAssigns, h2, hr2]

theorem c2_witness :
    diffEntryAssigns (toL "R100\ta\t\"b\"")
        = .ok [(correctExtendedChars (toL "a"), false), (toL "\"b\"", true)]
    ∧ diffEntryAssigns (toL "M\tx")
        = .ok [(correctExtendedChars (toL "x"), decide (toL "M" ≠ toL "D"))]
    ∧ ∃ l, l ∈ [toL "y"] ∧ l ≠ [] ∧ correctExtendedChars l = toL "y" :=
  c2_normalization_amended (toL "R100\ta\t\"b\"") (toL "R100") (toL "a")
    (toL "\"b\"") (toL "M\tx") (toL "M") (toL "x") [] [toL "y"] (toL "y")
    (by decide) (by decide) (by decide) (by decide) (by decide)

/-!  ## Claim C3 (confirmed) -/

/-- Claim C3: every non-empty diff-mode line is parsed tab-separated into
a status code and paths; a line whose code begins with 'R' carries a from
and a to path and contributes {from: false, to: true}; any other line is
treated as carrying a single path, mapped to false exactly when the code
is exactly "D" and to true for every other code (copy-status codes
included, which are not treated as two-path entries).  Paths are taken
here to be unaffected by normalization (normalization is claim C2's
subject); the concrete rename example evaluates through the whole diff
builder. -/
theorem c3_diff_entry_parse
    (e1 code1 f1 t1 e2 code2 f2 : JsStr) (rest2 : List JsStr)
    (h1 : e1.splitOn '\t' = [code1, f1, t1]) (hr1 : code1.head? = some 'R')
    (hf1 : correctExtendedChars f1 = f1)
    (h2 : e2.splitOn '\t' = code2 :: f2 :: rest2)
    (hr2 : code2.head? ≠ some 'R')
    (hf2 : correctExtendedChars f2 = f2) :
    diffEntryAssigns e1 = .ok [(f1, false), (t1, true)]
    ∧ diffEntryAssigns e2 = .ok [(f2, decide (code2 ≠ toL "D"))]
    ∧ buildDiff [toL "R100\tfrom.txt\tto.txt"]
        = .ok [(toL "from.txt", false), (toL "to.txt", true)] := by
  refine ⟨?_, ?_, by decide⟩
  · simp [diffEntryAssigns, h1, hr1, jsKeyOf, hf1]
  · simp [diffEntryAssigns, h2, hr2, hf2]

theorem c3_witness :
    diffEntryAssigns (toL "R100\tfrom.txt\tto.txt")
        = .ok [(toL "from.txt", false), (toL "to.txt", true)]
    ∧ diffEntryAssigns (toL "D\tgone.txt")
        = .ok [(toL "gone.txt", decide (toL "D" ≠ toL "D"))]
    ∧ buildDiff [toL "R100\tfrom.txt\tto.txt"]
        = .ok [(toL "from.txt", false), (toL "to.txt", true)] :=
  c3_diff_entry_parse (toL "R100\tfrom.txt\tto.txt") (toL "R100")
    (toL "from.txt") (toL "to.txt") (toL "D\tgone.txt") (toL "D")
    (toL "gone.txt") [] (by decide) (by decide) (by decide) (by decide)
    (by decide) (by decide)

/-!  ## Claim C4 (confirmed) -/

/-- Claim C4: for the filesystem backend, a path mapped to true in query N
and absent from the next two scans is reported false in query N+1 and is
absent entirely from the map of query N+2; if it is then scanned again it
is reported true — a fresh discovery, not a rename.  `fsStep` is the net
effect of one successful query on the tracked map (which is also the map
returned to the caller). -/
theorem c4_deletion_protocol (m : ChangesMap) (s1 s2 s3 : List JsStr)
    (p : JsStr) (hm : NodupKeys m) (hp : lookup m p = some true)
    (h1 : p ∉ s1) (h2 : p ∉ s2) (h3 : p ∈ s3) :
    lookup (fsStep m s1) p = some false
    ∧ lookup (fsStep (fsStep m s1) s2) p = none
    ∧ lookup (fsStep (fsStep (fsStep m s1) s2) s3) p = some true := by
  have hn1 : NodupKeys (fsStep m s1) := nodupKeys_fsStep _ hm
  have hn2 : NodupKeys (fsStep (fsStep m s1) s2) := nodupKeys_fsStep _ hn1
  have e1 : lookup (fsStep m s1) p = some false := by
    rw [lookup_fsStep m s1 p hm]; simp [h1, hp]
  have e2 : lookup (fsStep (fsStep m s1) s2) p = none := by
    rw [lookup_fsStep _ _ _ hn1]; simp [h2, e1]
  have e3 : lookup (fsStep (fsStep (fsStep m s1) s2) s3) p = some true := by
    rw [lookup_fsStep _ _ _ hn2]; simp [h3]
  exact ⟨e1, e2, e3⟩

theorem c4_witness :
    lookup (fsStep [(toL "a", true)] []) (toL "a") = some false
    ∧ lookup (fsStep (fsStep [(toL "a", true)] []) []) (toL "a") = none
    ∧ lookup (fsStep (fsStep (fsStep [(toL "a", true)] []) []) [toL "a"])
        (toL "a") = some true :=
  c4_deletion_protocol [(toL "a", true)] [] [] [toL "a"] (toL "a")
    (by decide) (by decide) (by decide) (by decide) (by decide)

/-!  ## Claim C5 (confirmed) -/

/-- Claim C5: in every tracked-map state reachable by a sequence of
successful queries from a freshly opened file source (initially empty), an
entry whose value is false is removed outright by step 1 of the next query
(`prepare`), so no key stays false across two consecutive queries:
whatever the next scan is, the next state does not map the key to
false. -/
theorem c5_false_reported_once (scans : List (List JsStr))
    (scan : List JsStr) (p : JsStr)
    (h : lookup (reach scans) p = some false) :
    lookup (prepare (reach scans)) p = none
    ∧ reach (scans ++ [scan]) = fsStep (reach scans) scan
    ∧ lookup (reach (scans ++ [scan])) p ≠ some false := by
  have hm : NodupKeys (reach scans) := nodupKeys_reach scans
  have happ : reach (scans ++ [scan]) = fsStep (reach scans) scan := by
    simp [reach, List.foldl_append]
  refine ⟨?_, happ, ?_⟩
  · rw [lookup_prepare _ _ hm, h]; simp
  · rw [happ, lookup_fsStep _ _ _ hm]
    by_cases hs : p ∈ scan
    · simp [hs]
    · simp [hs, h]

theorem c5_witness :
    lookup (prepare (reach [[toL "a"], []])) (toL "a") = none
    ∧ reach ([[toL "a"], []] ++ [[]]) = fsStep (reach [[toL "a"], []]) []
    ∧ lookup (reach ([[toL "a"], []] ++ [[]])) (toL "a") ≠ some false :=
  c5_false_reported_once [[toL "a"], []] [] (toL "a") (by decide)

/-!  ## Claim C6 (confirmed) -/

/-- Claim C6: for the filesystem backend, if the scanned set of files is
unchanged between two consecutive successful queries then every path true
in the first query's map is still true in the second; and a path absent
from query N's map but enumerated by the next two scans is reported true
in query N+1 and remains true in query N+2. -/
theorem c6_idempotence_and_addition (m : ChangesMap)
    (s1 s2 t1 t2 : List JsStr) (p q : JsStr) (hm : NodupKeys m)
    (hset : ∀ x, x ∈ s1 ↔ x ∈ s2)
    (hp : lookup (fsStep m s1) p = some true)
    (_hq : lookup m q = none) (ht1 : q ∈ t1) (ht2 : q ∈ t2) :
    lookup (fsStep (fsStep m s1) s2) p = some true
    ∧ lookup (fsStep m t1) q = some true
    ∧ lookup (fsStep (fsStep m t1) t2) q = some true := by
  have hn1 : NodupKeys (fsStep m s1) := nodupKeys_fsStep _ hm
  have hps1 : p ∈ s1 := by
    by_contra hns
    rw [lookup_fsStep m s1 p hm] at hp
    by_cases hmp : lookup m p = some true <;> simp [hns, hmp] at hp
  have e1 : lookup (fsStep (fsStep m s1) s2) p = some true := by
    rw [lookup_fsStep _ _ _ hn1]; simp [(hset p).mp hps1]
  have e2 : lookup (fsStep m t1) q = some true := by
    rw [lookup_fsStep _ _ _ hm]; simp [ht1]
  have e3 : lookup (fsStep (fsStep m t1) t2) q = some true := by
    rw [lookup_fsStep _ _ _ (nodupKeys_fsStep _ hm)]; simp [ht2]
  exact ⟨e1, e2, e3⟩

theorem c6_witness :
    lookup (fsStep (fsStep [] [toL "a"]) [toL "a"]) (toL "a") = some true
    ∧ lookup (fsStep [] [toL "b"]) (toL "b") = some true
    ∧ lookup (fsStep (fsStep [] [toL "b"]) [toL "b"]) (toL "b") = some true :=
  c6_idempotence_and_addition [] [toL "a"] [toL "a"] [toL "b"] [toL "b"]
    (toL "a") (toL "b") (by decide) (fun x => Iff.rfl) (by decide)
    (by decide) (by decide) (by decide)

/-!  ## Claim C7 (corrected) -/

/-- Claim C7, as stated, is false at a concrete input: the implementation
replaces a backslash followed by three *decimal* digits, not only octal
ones.  On the quoted input containing the escape-like sequence of `\`
followed by `999`, the specified transformation leaves the sequence
unchanged (9 is not an octal digit) while the code substitutes code
unit 0 (`parseInt("999", 8)` is `NaN` and `fromCharCode(NaN)` is 0). -/
theorem c7_counterexample :
    correctExtendedChars (toL "\"\\999\"") = [Char.ofNat 0]
    ∧ specNormalizeName (toL "\"\\999\"") = toL "\\999"
    ∧ correctExtendedChars (toL "\"\\999\"")
        ≠ specNormalizeName (toL "\"\\999\"") := by
  decide

/-- Claim C7, amended: filename normalization maps any path string that
both starts and ends with a double quote to the string obtained by
stripping both quotes and replacing every occurrence of a backslash
followed by three *decimal* digits with the single code unit (range 0-511)
whose value is the longest octal-digit prefix of those digits read in base
8 (0 when the first digit is 8 or 9); any other path string is returned
unchanged; the quoted octal-escaped café example decodes to "caf", the
bytes 0o303 and 0o251, and ".txt" exactly as claimed. -/
theorem c7_normalization_amended (s u : List Char)
    (hu : ¬(u.head? = some '"' ∧ u.getLast? = some '"')) :
    correctExtendedChars s = amendedNormalizeName s
    ∧ correctExtendedChars u = u
    ∧ correctExtendedChars (toL "\"caf\\303\\251.txt\"")
        = toL "caf" ++ [Char.ofNat 195, Char.ofNat 169] ++ toL ".txt" := by
  refine ⟨correctExtendedChars_eq_amended s, ?_, by decide⟩
  simp [correctExtendedChars, hu]

theorem c7_witness :
    correctExtendedChars (toL "\"\\303\"")
        = amendedNormalizeName (toL "\"\\303\"")
    ∧ correctExtendedChars (toL "plain.txt") = toL "plain.txt"
    ∧ correctExtendedChars (toL "\"caf\\303\\251.txt\"")
        = toL "caf" ++ [Char.ofNat 195, Char.ofNat 169] ++ toL ".txt" :=
  c7_normalization_amended (toL "\"\\303\"") (toL "plain.txt") (by decide)

/-!  ## Claim C8 (confirmed) -/

/-- Claim C8: a Git change source queried with `since` omitted returns,
for every output of the listing invocation that produced no error output,
the ChangesMap whose keys correspond exactly to the non-empty output lines
(each key is the normalization of such a line; empty lines are discarded)
and in which every value is true. -/
theorem c8_listing_keys_and_values (r : ProcResult) (k : JsStr)
    (kv : JsStr × Bool) (h : r.stderr = [])
    (hkv : kv ∈ buildList (r.stdout.splitOn '\n')) :
    gitGetChanges none r = .ok (buildList (r.stdout.splitOn '\n'))
    ∧ (k ∈ keys (buildList (r.stdout.splitOn '\n'))
        ↔ ∃ l, l ∈ r.stdout.splitOn '\n' ∧ l ≠ []
            ∧ correctExtendedChars l = k)
    ∧ kv.2 = true := by
  refine ⟨?_, mem_keys_buildList _ _, allTrue_buildList _ kv hkv⟩
  simp [gitGetChanges, listActiveR, exec, h]

theorem c8_witness :
    gitGetChanges none ⟨toL "a\nb", [], 0⟩
        = .ok (buildList ((toL "a\nb").splitOn '\n'))
    ∧ (toL "a" ∈ keys (buildList ((toL "a\nb").splitOn '\n'))
        ↔ ∃ l, l ∈ (toL "a\nb").splitOn '\n' ∧ l ≠ []
            ∧ correctExtendedChars l = toL "a")
    ∧ (toL "a", true).2 = true :=
  c8_listing_keys_and_values ⟨toL "a\nb", [], 0⟩ (toL "a") (toL "a", true)
    rfl (by decide)

/-!  ## Claim C9 (confirmed) -/

/-- Claim C9: the command runner fails, carrying the full captured
error-stream text, whenever any bytes were written to the error stream,
regardless of the process exit status; otherwise it resolves to the stdout
split into lines; consequently a Git-source query (either mode) whose
invocation reports error output fails as a whole and returns no partial
ChangesMap. -/
theorem c9_exec_stderr_failure (r : ProcResult) (since : Option JsStr)
    (c : Int) (out : JsStr) (h : r.stderr ≠ []) :
    exec r = .error r.stderr
    ∧ exec { r with exitCode := c } = .error r.stderr
    ∧ gitGetChanges since r = .error (.stderrOutput r.stderr)
    ∧ exec ⟨out, [], c⟩ = .ok (out.splitOn '\n') := by
  refine ⟨?_, ?_, ?_, ?_⟩
  · simp [exec, h]
  · simp [exec, h]
  · rcases since with _ | s
    · simp [gitGetChanges, listActiveR, exec, h]
    · by_cases hs : s.isEmpty <;>
        simp [gitGetChanges, hs, listActiveR, getChangesSinceR, exec, h]
  · simp [exec]

theorem c9_witness :
    exec ⟨toL "x", toL "err", 1⟩ = .error (toL "err")
    ∧ exec ⟨toL "x", toL "err", 7⟩ = .error (toL "err")
    ∧ gitGetChanges none ⟨toL "x", toL "err", 1⟩
        = .error (.stderrOutput (toL "err"))
    ∧ exec ⟨toL "a\nb", [], 7⟩ = .ok ((toL "a\nb").splitOn '\n') :=
  c9_exec_stderr_failure ⟨toL "x", toL "err", 1⟩ none 7 (toL "a\nb")
    (by decide)

/-!  ## Claim C10 (confirmed) -/

/-- Claim C10: filename normalization applied to the one-character string
consisting of a single double quote treats that character as both the
opening and the closing quote and returns the empty string — the guard
compares only the first and last character codes and never requires length
at least 2 — so a lone double-quote line in a listing becomes the
empty-string key of the returned map. -/
theorem c10_lone_quote :
    correctExtendedChars (toL "\"") = []
    ∧ buildList [toL "\""] = [([], true)]
    ∧ lookup (buildList [toL "\""]) [] = some true := by
  decide

end Locomote
